import Mathlib

/-!
Shallow embedding of the syntactic token-tree comparison and containment
engine of the rustilities repository (module parsing):
syntactic_token_tree_compare, syntactic_token_stream_compare and
syntactic_token_stream_contains, together with theorems settling the
claims about them.

Token trees are modelled after the proc_macro2 data the source operates
on: identifiers carry their text, punctuation tokens carry their
character plus the spacing flag (which the source ignores when
comparing), literals carry their textual rendering (proc_macro2 stores a
literal as its rendered text), and groups carry a delimiter and the list
of child trees.  Rust vectors of token trees become Lean lists.  The
containment search, whose Rust loop indexes the haystack vector and can
in principle hit the out-of-bounds panic branch of Vec indexing, is
embedded with result type Option Bool: none models a panic.
-/

/-- The four group delimiters of proc_macro2. -/
inductive Delimiter where
  | parenthesis
  | brace
  | bracket
  | invisible
deriving DecidableEq, Repr

/-- A token tree: identifier, punctuation, literal or delimited group.
The spacing flag of punctuation is kept because the source receives it
but deliberately ignores it on comparison; a literal is its rendered
text, exactly as proc_macro2 stores it. -/
inductive TokenTree where
  | ident (text : String)
  | punct (ch : Char) (joint : Bool)
  | lit (repr : String)
  | group (delim : Delimiter) (children : List TokenTree)

namespace Rustilities

open TokenTree

mutual

/-- Embedding of syntactic_token_tree_compare (src/parsing.rs):
identifiers compare by text, punctuation by character only, literals by
rendered text, groups by delimiter, child count and recursive pairwise
comparison; any other pairing is unequal. -/
def syntactic_token_tree_compare : TokenTree → TokenTree → Bool
  | .ident id1, .ident id2 => id1 == id2
  | .punct p1 _, .punct p2 _ => p1 == p2
  | .lit l1, .lit l2 => l1 == l2
  | .group d1 g1_tt, .group d2 g2_tt =>
      if d1 ≠ d2 then false
      else if g1_tt.length ≠ g2_tt.length then false
      else compareZip g1_tt g2_tt
  | _, _ => false

/-- The zip-and-all step of the source: iter().zip(iter()).all(compare).
Like Iterator::zip it stops at the shorter sequence (callers check the
lengths first). -/
def compareZip : List TokenTree → List TokenTree → Bool
  | [], _ => true
  | _, [] => true
  | tt1 :: r1, tt2 :: r2 => syntactic_token_tree_compare tt1 tt2 && compareZip r1 r2

end

/-- Embedding of syntactic_token_stream_compare (src/parsing.rs): equal
length and pairwise tree comparison. -/
def syntactic_token_stream_compare (stream1_tt stream2_tt : List TokenTree) : Bool :=
  if stream1_tt.length ≠ stream2_tt.length then false
  else compareZip stream1_tt stream2_tt

/-- The inner verification loop of syntactic_token_stream_contains:
for j in i..i + small_tt.len(), check large_tt j against small_tt (j - i),
reporting the first failing offset.  The argument list is the part of the
needle still to verify and j the current haystack index.  Result none
models the panic of the Rust indexing large_tt[j] when j is out of
bounds; some none means every offset matched; some (some j) means offset
j is the first failing one. -/
def verifyRun (large_tt : List TokenTree) : List TokenTree → Nat → Option (Option Nat)
  | [], _ => some none
  | s :: rest, j =>
      match large_tt[j]? with
      | none => none
      | some lt =>
          if syntactic_token_tree_compare lt s then verifyRun large_tt rest (j + 1)
          else some (some j)

theorem verifyRun_fail_ge (large_tt : List TokenTree) :
    ∀ (s : List TokenTree) (start j : Nat),
      verifyRun large_tt s start = some (some j) → start ≤ j := by
  intro s
  induction s with
  | nil => intro start j h; simp [verifyRun] at h
  | cons t rest ih =>
      intro start j h
      unfold verifyRun at h
      cases hl : large_tt[start]? with
      | none => rw [hl] at h; exact absurd h (by simp)
      | some lt =>
          rw [hl] at h
          dsimp only at h
          by_cases hc : syntactic_token_tree_compare lt t
          · rw [if_pos hc] at h
            exact Nat.le_of_succ_le (ih (start + 1) j h)
          · rw [if_neg hc] at h
            simp only [Option.some.injEq] at h
            omega

theorem lt_length_of_getElem?_some (l : List TokenTree) (i : Nat) (t : TokenTree)
    (h : l[i]? = some t) : i < l.length := by
  by_contra hge
  rw [List.getElem?_eq_none (Nat.le_of_not_lt hge)] at h
  exact absurd h (by simp)

theorem mem_of_getElem?_some (l : List TokenTree) (i : Nat) (t : TokenTree)
    (h : l[i]? = some t) : t ∈ l := by
  have hi := lt_length_of_getElem?_some l i t h
  rw [List.getElem?_eq_getElem hi] at h
  simp only [Option.some.injEq] at h
  subst h
  exact List.getElem_mem hi

mutual

/-- Embedding of syntactic_token_stream_contains (src/parsing.rs).  An
empty needle is contained; a needle longer than the top-level haystack is
reported not contained; otherwise the outer while loop runs from index 0.
Result none models a panic of the Rust code. -/
def syntactic_token_stream_contains (small_tt large_tt : List TokenTree) : Option Bool :=
  if small_tt.isEmpty then some true
  else if large_tt.length < small_tt.length then some false
  else containsLoop small_tt large_tt 0
termination_by (sizeOf large_tt, large_tt.length + 1)
decreasing_by
  exact Prod.Lex.right _ (by omega)

/-- The outer while loop of syntactic_token_stream_contains at index i.
When the guard comparison of large_tt i against the needle head succeeds,
the source re-runs that same comparison as the j = i iteration of its
inner for loop; since it already succeeded, verification proceeds with
the needle tail at index i + 1.  A failing offset j resumes the loop at
i = j; a group whose stream contains the needle returns true, and a
recursive panic propagates. -/
def containsLoop (small_tt large_tt : List TokenTree) (i : Nat) : Option Bool :=
  match hl : large_tt[i]? with
  | none => some false
  | some lt =>
      match small_tt with
      | [] => none
      | s0 :: rest =>
          if syntactic_token_tree_compare lt s0 then
            match hv : verifyRun large_tt rest (i + 1) with
            | none => none
            | some none => some true
            | some (some j) => containsLoop small_tt large_tt j
          else
            match hlt : lt with
            | .group _ gs =>
                match syntactic_token_stream_contains small_tt gs with
                | none => none
                | some true => some true
                | some false => containsLoop small_tt large_tt (i + 1)
            | _ => containsLoop small_tt large_tt (i + 1)
termination_by (sizeOf large_tt, large_tt.length - i)
decreasing_by
  · have hij : i + 1 ≤ j := verifyRun_fail_ge large_tt rest (i + 1) j hv
    have hi : i < large_tt.length := lt_length_of_getElem?_some large_tt i lt hl
    exact Prod.Lex.right _ (by omega)
  · have hmem := mem_of_getElem?_some large_tt i _ hl
    have hslt := List.sizeOf_lt_of_mem hmem
    simp only [TokenTree.group.sizeOf_spec] at hslt
    exact Prod.Lex.left _ _ (by omega)
  · have hi : i < large_tt.length := lt_length_of_getElem?_some large_tt i _ hl
    exact Prod.Lex.right _ (by omega)
  · have hi : i < large_tt.length := lt_length_of_getElem?_some large_tt i _ hl
    exact Prod.Lex.right _ (by omega)

end

/-! Unfolding lemmas for the containment search, used to evaluate it on
concrete inputs and to reason about its loop. -/

theorem contains_nil_needle (large_tt : List TokenTree) :
    syntactic_token_stream_contains [] large_tt = some true := by
  rw [syntactic_token_stream_contains.eq_def]
  simp

theorem contains_too_long (small_tt large_tt : List TokenTree)
    (h : small_tt ≠ []) (hlen : large_tt.length < small_tt.length) :
    syntactic_token_stream_contains small_tt large_tt = some false := by
  rw [syntactic_token_stream_contains.eq_def]
  rw [if_neg (by simpa using h), if_pos hlen]

theorem contains_enter_loop (small_tt large_tt : List TokenTree)
    (h : small_tt ≠ []) (hlen : ¬ large_tt.length < small_tt.length) :
    syntactic_token_stream_contains small_tt large_tt = containsLoop small_tt large_tt 0 := by
  rw [syntactic_token_stream_contains.eq_def]
  rw [if_neg (by simpa using h), if_neg hlen]

theorem containsLoop_exit (small_tt large_tt : List TokenTree) (i : Nat)
    (h : large_tt[i]? = none) : containsLoop small_tt large_tt i = some false := by
  rw [containsLoop.eq_def]
  split
  · rfl
  · rename_i lt heq
    rw [h] at heq
    exact absurd heq (by simp)

theorem containsLoop_hit (small_tt large_tt : List TokenTree) (i : Nat)
    (s0 : TokenTree) (rest : List TokenTree) (lt : TokenTree)
    (hsmall : small_tt = s0 :: rest)
    (h : large_tt[i]? = some lt) (hg : syntactic_token_tree_compare lt s0 = true) :
    containsLoop small_tt large_tt i =
      match verifyRun large_tt rest (i + 1) with
      | none => none
      | some none => some true
      | some (some j) => containsLoop small_tt large_tt j := by
  subst hsmall
  rw [containsLoop.eq_def]
  split
  · rename_i heq
    rw [h] at heq
    exact absurd heq (by simp)
  · rename_i lt' heq
    rw [h] at heq
    simp only [Option.some.injEq] at heq
    subst heq
    dsimp only
    rw [if_pos hg]
    split <;> rename_i hres <;> rw [hres]

theorem containsLoop_miss_group (small_tt large_tt : List TokenTree) (i : Nat)
    (s0 : TokenTree) (rest : List TokenTree) (d : Delimiter) (gs : List TokenTree)
    (hsmall : small_tt = s0 :: rest)
    (h : large_tt[i]? = some (.group d gs))
    (hg : syntactic_token_tree_compare (.group d gs) s0 = false) :
    containsLoop small_tt large_tt i =
      match syntactic_token_stream_contains small_tt gs with
      | none => none
      | some true => some true
      | some false => containsLoop small_tt large_tt (i + 1) := by
  subst hsmall
  rw [containsLoop.eq_def]
  split
  · rename_i heq
    rw [h] at heq
    exact absurd heq (by simp)
  · rename_i lt' heq
    rw [h] at heq
    simp only [Option.some.injEq] at heq
    subst heq
    dsimp only
    rw [if_neg (by simp [hg])]

theorem containsLoop_miss_other (small_tt large_tt : List TokenTree) (i : Nat)
    (s0 : TokenTree) (rest : List TokenTree) (lt : TokenTree)
    (hsmall : small_tt = s0 :: rest)
    (h : large_tt[i]? = some lt)
    (hg : syntactic_token_tree_compare lt s0 = false)
    (hng : ∀ (d : Delimiter) (gs : List TokenTree), lt ≠ .group d gs) :
    containsLoop small_tt large_tt i = containsLoop small_tt large_tt (i + 1) := by
  subst hsmall
  rw [containsLoop.eq_def]
  split
  · rename_i heq
    rw [h] at heq
    exact absurd heq (by simp)
  · rename_i lt' heq
    rw [h] at heq
    simp only [Option.some.injEq] at heq
    subst heq
    dsimp only
    rw [if_neg (by simp [hg])]
    split
    · rename_i d gs heq2
      exact absurd rfl (hng d gs)
    · rfl

/-- Run predicate used to state the claims: the needle (first argument)
is pairwise compare-equal, in order, to an initial run of the given
haystack suffix; comparisons take the haystack tree first just as the
source calls compare(large_tt j, small_tt (j - i)). -/
def matchRun : List TokenTree → List TokenTree → Bool
  | [], _ => true
  | _ :: _, [] => false
  | s :: ss, l :: ls => syntactic_token_tree_compare l s && matchRun ss ls

/-- The containment property as the claims state it: some contiguous run
of tokens, at the top level of the haystack or at the top level of the
child sequence of a group nested at any depth inside it, has the same
length as the needle and is pairwise compare-equal to it in order. -/
inductive OccursIn (small_tt : List TokenTree) : List TokenTree → Prop where
  | top (large_tt : List TokenTree) (i : Nat)
      (h : matchRun small_tt (large_tt.drop i) = true) : OccursIn small_tt large_tt
  | nested (large_tt : List TokenTree) (d : Delimiter) (gs : List TokenTree)
      (hmem : TokenTree.group d gs ∈ large_tt) (h : OccursIn small_tt gs) :
      OccursIn small_tt large_tt

mutual

/-- The textbook naive search the specification compares the reference
against: identical to syntactic_token_stream_contains except that a
failed alignment resumes scanning at i + 1 instead of the first failing
offset, and the full run at a position is checked with bounds in mind,
so it is total and returns a plain boolean. -/
def naive_contains (small_tt large_tt : List TokenTree) : Bool :=
  if small_tt.isEmpty then true
  else if large_tt.length < small_tt.length then false
  else naiveLoop small_tt large_tt 0
termination_by (sizeOf large_tt, large_tt.length + 1)
decreasing_by
  exact Prod.Lex.right _ (by omega)

/-- The scanning loop of the naive search at index i. -/
def naiveLoop (small_tt large_tt : List TokenTree) (i : Nat) : Bool :=
  match hl : large_tt[i]? with
  | none => false
  | some lt =>
      match small_tt with
      | [] => false
      | s0 :: _ =>
          if syntactic_token_tree_compare lt s0 then
            if matchRun small_tt (large_tt.drop i) then true
            else naiveLoop small_tt large_tt (i + 1)
          else
            match hlt : lt with
            | .group _ gs => naive_contains small_tt gs || naiveLoop small_tt large_tt (i + 1)
            | _ => naiveLoop small_tt large_tt (i + 1)
termination_by (sizeOf large_tt, large_tt.length - i)
decreasing_by
  · have hi : i < large_tt.length := lt_length_of_getElem?_some large_tt i lt hl
    exact Prod.Lex.right _ (by omega)
  · have hmem := mem_of_getElem?_some large_tt i _ hl
    have hslt := List.sizeOf_lt_of_mem hmem
    simp only [TokenTree.group.sizeOf_spec] at hslt
    exact Prod.Lex.left _ _ (by omega)
  · have hi : i < large_tt.length := lt_length_of_getElem?_some large_tt i _ hl
    exact Prod.Lex.right _ (by omega)
  · have hi : i < large_tt.length := lt_length_of_getElem?_some large_tt i _ hl
    exact Prod.Lex.right _ (by omega)

end

theorem drop_eq_cons_of_getElem?_some (l : List TokenTree) (i : Nat) (t : TokenTree)
    (h : l[i]? = some t) : l.drop i = t :: l.drop (i + 1) := by
  have hi := lt_length_of_getElem?_some l i t h
  rw [List.getElem?_eq_getElem hi] at h
  simp only [Option.some.injEq] at h
  subst h
  exact List.drop_eq_getElem_cons hi

/-! Unfolding lemmas for the naive search loop. -/

theorem naiveLoop_exit (small_tt large_tt : List TokenTree) (i : Nat)
    (h : large_tt[i]? = none) : naiveLoop small_tt large_tt i = false := by
  rw [naiveLoop.eq_def]
  split
  · rfl
  · rename_i lt heq
    rw [h] at heq
    exact absurd heq (by simp)

theorem naiveLoop_hit_found (small_tt large_tt : List TokenTree) (i : Nat)
    (s0 : TokenTree) (rest : List TokenTree) (lt : TokenTree)
    (hsmall : small_tt = s0 :: rest)
    (h : large_tt[i]? = some lt) (hg : syntactic_token_tree_compare lt s0 = true)
    (hrun : matchRun small_tt (large_tt.drop i) = true) :
    naiveLoop small_tt large_tt i = true := by
  subst hsmall
  rw [naiveLoop.eq_def]
  split
  · rename_i heq
    rw [h] at heq
    exact absurd heq (by simp)
  · rename_i lt' heq
    rw [h] at heq
    simp only [Option.some.injEq] at heq
    subst heq
    dsimp only
    rw [if_pos hg, if_pos hrun]

theorem naiveLoop_hit_next (small_tt large_tt : List TokenTree) (i : Nat)
    (s0 : TokenTree) (rest : List TokenTree) (lt : TokenTree)
    (hsmall : small_tt = s0 :: rest)
    (h : large_tt[i]? = some lt) (hg : syntactic_token_tree_compare lt s0 = true)
    (hrun : matchRun small_tt (large_tt.drop i) = false) :
    naiveLoop small_tt large_tt i = naiveLoop small_tt large_tt (i + 1) := by
  subst hsmall
  rw [naiveLoop.eq_def]
  split
  · rename_i heq
    rw [h] at heq
    exact absurd heq (by simp)
  · rename_i lt' heq
    rw [h] at heq
    simp only [Option.some.injEq] at heq
    subst heq
    dsimp only
    rw [if_pos hg, if_neg (by simp [hrun])]

theorem naiveLoop_miss_group (small_tt large_tt : List TokenTree) (i : Nat)
    (s0 : TokenTree) (rest : List TokenTree) (d : Delimiter) (gs : List TokenTree)
    (hsmall : small_tt = s0 :: rest)
    (h : large_tt[i]? = some (.group d gs))
    (hg : syntactic_token_tree_compare (.group d gs) s0 = false) :
    naiveLoop small_tt large_tt i =
      (naive_contains small_tt gs || naiveLoop small_tt large_tt (i + 1)) := by
  subst hsmall
  rw [naiveLoop.eq_def]
  split
  · rename_i heq
    rw [h] at heq
    exact absurd heq (by simp)
  · rename_i lt' heq
    rw [h] at heq
    simp only [Option.some.injEq] at heq
    subst heq
    dsimp only
    rw [if_neg (by simp [hg])]

theorem naiveLoop_miss_other (small_tt large_tt : List TokenTree) (i : Nat)
    (s0 : TokenTree) (rest : List TokenTree) (lt : TokenTree)
    (hsmall : small_tt = s0 :: rest)
    (h : large_tt[i]? = some lt)
    (hg : syntactic_token_tree_compare lt s0 = false)
    (hng : ∀ (d : Delimiter) (gs : List TokenTree), lt ≠ .group d gs) :
    naiveLoop small_tt large_tt i = naiveLoop small_tt large_tt (i + 1) := by
  subst hsmall
  rw [naiveLoop.eq_def]
  split
  · rename_i heq
    rw [h] at heq
    exact absurd heq (by simp)
  · rename_i lt' heq
    rw [h] at heq
    simp only [Option.some.injEq] at heq
    subst heq
    dsimp only
    rw [if_neg (by simp [hg])]
    split
    · rename_i d gs heq2
      exact absurd rfl (hng d gs)
    · rfl

/-- A fully successful inner verification yields a matching run. -/
theorem verifyRun_ok_matchRun (large_tt : List TokenTree) :
    ∀ (s : List TokenTree) (j : Nat), verifyRun large_tt s j = some none →
      matchRun s (large_tt.drop j) = true := by
  intro s
  induction s with
  | nil => intro j _; rfl
  | cons t rest ih =>
      intro j h
      unfold verifyRun at h
      cases hl : large_tt[j]? with
      | none => rw [hl] at h; exact absurd h (by simp)
      | some lt =>
          rw [hl] at h
          dsimp only at h
          by_cases hc : syntactic_token_tree_compare lt t
          · rw [if_pos hc] at h
            rw [drop_eq_cons_of_getElem?_some large_tt j lt hl]
            simp only [matchRun, hc, Bool.true_and]
            exact ih (j + 1) h
          · rw [if_neg hc] at h
            exact absurd h (by simp)

theorem lt_length_of_matchRun (s0 : TokenTree) (rest large_tt : List TokenTree) (p : Nat)
    (h : matchRun (s0 :: rest) (large_tt.drop p) = true) : p < large_tt.length := by
  by_contra hge
  rw [List.drop_eq_nil_of_le (Nat.le_of_not_lt hge)] at h
  exact absurd h (by simp [matchRun])

/-- The naive loop reports success whenever some position at or past its
current index carries a matching run or a non-matching group whose stream
naively contains the needle. -/
theorem naiveLoop_of_witness (s0 : TokenTree) (rest : List TokenTree)
    (large_tt : List TokenTree) (i p : Nat) (hip : i ≤ p)
    (hw : matchRun (s0 :: rest) (large_tt.drop p) = true ∨
      (∃ d gs, large_tt[p]? = some (.group d gs) ∧
        syntactic_token_tree_compare (.group d gs) s0 = false ∧
        naive_contains (s0 :: rest) gs = true)) :
    naiveLoop (s0 :: rest) large_tt i = true := by
  have hp : p < large_tt.length := by
    cases hw with
    | inl htop => exact lt_length_of_matchRun s0 rest large_tt p htop
    | inr hgrp =>
        obtain ⟨d, gs, hpe, _, _⟩ := hgrp
        exact lt_length_of_getElem?_some large_tt p _ hpe
  cases hl : large_tt[i]? with
  | none =>
      have := lt_length_of_getElem?_some large_tt p
      exfalso
      have hle : large_tt.length ≤ i := by
        by_contra hlt
        rw [List.getElem?_eq_getElem (Nat.lt_of_not_le hlt)] at hl
        exact absurd hl (by simp)
      omega
  | some lt =>
      by_cases hi : i = p
      · subst hi
        cases hw with
        | inl htop =>
            have hdrop := drop_eq_cons_of_getElem?_some large_tt i lt hl
            have hg : syntactic_token_tree_compare lt s0 = true := by
              rw [hdrop] at htop
              simp only [matchRun, Bool.and_eq_true] at htop
              exact htop.1
            exact naiveLoop_hit_found _ _ i s0 rest lt rfl hl hg htop
        | inr hgrp =>
            obtain ⟨d, gs, hpe, hg, hnc⟩ := hgrp
            rw [hl] at hpe
            simp only [Option.some.injEq] at hpe
            subst hpe
            rw [naiveLoop_miss_group _ _ i s0 rest d gs rfl hl hg]
            simp [hnc]
      · have hlt_len : i < large_tt.length := lt_length_of_getElem?_some large_tt i lt hl
        have hip' : i + 1 ≤ p := by omega
        cases hg : syntactic_token_tree_compare lt s0 with
        | true =>
            cases hrun : matchRun (s0 :: rest) (large_tt.drop i) with
            | true => exact naiveLoop_hit_found _ _ i s0 rest lt rfl hl hg hrun
            | false =>
                rw [naiveLoop_hit_next _ _ i s0 rest lt rfl hl hg hrun]
                exact naiveLoop_of_witness s0 rest large_tt (i + 1) p hip' hw
        | false =>
            cases lt with
            | group d gs =>
                rw [naiveLoop_miss_group _ _ i s0 rest d gs rfl hl hg]
                rw [Bool.or_eq_true]
                exact Or.inr (naiveLoop_of_witness s0 rest large_tt (i + 1) p hip' hw)
            | ident s =>
                rw [naiveLoop_miss_other _ _ i s0 rest _ rfl hl hg (fun d gs h => nomatch h)]
                exact naiveLoop_of_witness s0 rest large_tt (i + 1) p hip' hw
            | punct c j =>
                rw [naiveLoop_miss_other _ _ i s0 rest _ rfl hl hg (fun d gs h => nomatch h)]
                exact naiveLoop_of_witness s0 rest large_tt (i + 1) p hip' hw
            | lit r =>
                rw [naiveLoop_miss_other _ _ i s0 rest _ rfl hl hg (fun d gs h => nomatch h)]
                exact naiveLoop_of_witness s0 rest large_tt (i + 1) p hip' hw
termination_by large_tt.length - i
decreasing_by
  all_goals omega

/-- Soundness of the reference loop: a success at index i exhibits, at
some position at or past i, either a matching run or a non-matching
group whose stream the reference reports as containing the needle. -/
theorem containsLoop_sound (s0 : TokenTree) (rest : List TokenTree)
    (large_tt : List TokenTree) (i : Nat)
    (h : containsLoop (s0 :: rest) large_tt i = some true) :
    ∃ p, i ≤ p ∧
      (matchRun (s0 :: rest) (large_tt.drop p) = true ∨
        (∃ d gs, large_tt[p]? = some (.group d gs) ∧
          syntactic_token_tree_compare (.group d gs) s0 = false ∧
          syntactic_token_stream_contains (s0 :: rest) gs = some true)) := by
  cases hl : large_tt[i]? with
  | none =>
      rw [containsLoop_exit _ _ i hl] at h
      exact absurd h (by simp)
  | some lt =>
      have hlt_len : i < large_tt.length := lt_length_of_getElem?_some large_tt i lt hl
      cases hg : syntactic_token_tree_compare lt s0 with
      | true =>
          rw [containsLoop_hit _ _ i s0 rest lt rfl hl hg] at h
          cases hv : verifyRun large_tt rest (i + 1) with
          | none => rw [hv] at h; exact absurd h (by simp)
          | some o =>
              cases o with
              | none =>
                  refine ⟨i, Nat.le_refl i, Or.inl ?_⟩
                  rw [drop_eq_cons_of_getElem?_some large_tt i lt hl]
                  simp only [matchRun, Bool.and_eq_true]
                  exact ⟨hg, verifyRun_ok_matchRun large_tt rest (i + 1) hv⟩
              | some j =>
                  rw [hv] at h
                  dsimp only at h
                  have hij : i + 1 ≤ j := verifyRun_fail_ge large_tt rest (i + 1) j hv
                  obtain ⟨p, hjp, hw⟩ := containsLoop_sound s0 rest large_tt j h
                  exact ⟨p, by omega, hw⟩
      | false =>
          cases lt with
          | group d gs =>
              rw [containsLoop_miss_group _ _ i s0 rest d gs rfl hl hg] at h
              cases hc : syntactic_token_stream_contains (s0 :: rest) gs with
              | none => rw [hc] at h; exact absurd h (by simp)
              | some b =>
                  cases b with
                  | true => exact ⟨i, Nat.le_refl i, Or.inr ⟨d, gs, hl, hg, hc⟩⟩
                  | false =>
                      rw [hc] at h
                      dsimp only at h
                      obtain ⟨p, hjp, hw⟩ := containsLoop_sound s0 rest large_tt (i + 1) h
                      exact ⟨p, by omega, hw⟩
          | ident s =>
              rw [containsLoop_miss_other _ _ i s0 rest _ rfl hl hg (fun d gs hh => nomatch hh)]
                at h
              obtain ⟨p, hjp, hw⟩ := containsLoop_sound s0 rest large_tt (i + 1) h
              exact ⟨p, by omega, hw⟩
          | punct c jn =>
              rw [containsLoop_miss_other _ _ i s0 rest _ rfl hl hg (fun d gs hh => nomatch hh)]
                at h
              obtain ⟨p, hjp, hw⟩ := containsLoop_sound s0 rest large_tt (i + 1) h
              exact ⟨p, by omega, hw⟩
          | lit r =>
              rw [containsLoop_miss_other _ _ i s0 rest _ rfl hl hg (fun d gs hh => nomatch hh)]
                at h
              obtain ⟨p, hjp, hw⟩ := containsLoop_sound s0 rest large_tt (i + 1) h
              exact ⟨p, by omega, hw⟩
termination_by large_tt.length - i
decreasing_by
  all_goals omega

/-- Every success of the reference search is a success of the naive
search: the needle is found by restart-at-i-plus-1 scanning whenever the
skip-based reference reports it. -/
theorem contains_implies_naive (small_tt large_tt : List TokenTree)
    (h : syntactic_token_stream_contains small_tt large_tt = some true) :
    naive_contains small_tt large_tt = true := by
  cases small_tt with
  | nil => rw [naive_contains.eq_def]; simp
  | cons s0 rest =>
      by_cases hlen : large_tt.length < (s0 :: rest).length
      · rw [contains_too_long _ _ (by simp) hlen] at h
        exact absurd h (by simp)
      · rw [contains_enter_loop _ _ (by simp) hlen] at h
        obtain ⟨p, hip, hw⟩ := containsLoop_sound s0 rest large_tt 0 h
        have hnaive : naiveLoop (s0 :: rest) large_tt 0 = true := by
          apply naiveLoop_of_witness s0 rest large_tt 0 p hip
          cases hw with
          | inl htop => exact Or.inl htop
          | inr hgrp =>
              obtain ⟨d, gs, hpe, hg, hc⟩ := hgrp
              exact Or.inr ⟨d, gs, hpe, hg, contains_implies_naive (s0 :: rest) gs hc⟩
        rw [naive_contains.eq_def]
        rw [if_neg (by simp), if_neg hlen]
        exact hnaive
termination_by sizeOf large_tt
decreasing_by
  have hmem := mem_of_getElem?_some large_tt p _ hpe
  have hslt := List.sizeOf_lt_of_mem hmem
  simp only [TokenTree.group.sizeOf_spec] at hslt
  omega

/-! Algebraic facts about the comparison functions. -/

mutual

theorem tree_compare_refl : ∀ t : TokenTree, syntactic_token_tree_compare t t = true
  | .ident s => by simp [syntactic_token_tree_compare]
  | .punct c j => by simp [syntactic_token_tree_compare]
  | .lit r => by simp [syntactic_token_tree_compare]
  | .group d gs => by
      have h := compareZip_refl gs
      simp [syntactic_token_tree_compare, h]

theorem compareZip_refl : ∀ s : List TokenTree, compareZip s s = true
  | [] => rfl
  | t :: r => by
      have h1 := tree_compare_refl t
      have h2 := compareZip_refl r
      simp [compareZip, h1, h2]

end

theorem stream_compare_refl (s : List TokenTree) :
    syntactic_token_stream_compare s s = true := by
  simp [syntactic_token_stream_compare, compareZip_refl s]

mutual

theorem tree_compare_symm : ∀ a b : TokenTree,
    syntactic_token_tree_compare a b = syntactic_token_tree_compare b a
  | .ident s1, .ident s2 => by
      simp only [syntactic_token_tree_compare]
      exact BEq.comm
  | .punct c1 j1, .punct c2 j2 => by
      simp only [syntactic_token_tree_compare]
      exact BEq.comm
  | .lit r1, .lit r2 => by
      simp only [syntactic_token_tree_compare]
      exact BEq.comm
  | .group d1 s1, .group d2 s2 => by
      simp only [syntactic_token_tree_compare]
      by_cases hd : d1 = d2
      · subst hd
        by_cases hl : s1.length = s2.length
        · have h := compareZip_symm s1 s2
          simp [hl, h]
        · simp [hl, Ne.symm hl]
      · simp [hd, Ne.symm hd]
  | .ident _, .punct _ _ => rfl
  | .ident _, .lit _ => rfl
  | .ident _, .group _ _ => rfl
  | .punct _ _, .ident _ => rfl
  | .punct _ _, .lit _ => rfl
  | .punct _ _, .group _ _ => rfl
  | .lit _, .ident _ => rfl
  | .lit _, .punct _ _ => rfl
  | .lit _, .group _ _ => rfl
  | .group _ _, .ident _ => rfl
  | .group _ _, .punct _ _ => rfl
  | .group _ _, .lit _ => rfl

theorem compareZip_symm : ∀ s1 s2 : List TokenTree, compareZip s1 s2 = compareZip s2 s1
  | [], [] => rfl
  | [], _ :: _ => rfl
  | _ :: _, [] => rfl
  | t1 :: r1, t2 :: r2 => by
      simp only [compareZip]
      rw [tree_compare_symm t1 t2, compareZip_symm r1 r2]

end

theorem compareZip_true_iff_forall2 : ∀ s1 s2 : List TokenTree, s1.length = s2.length →
    (compareZip s1 s2 = true ↔
      List.Forall₂ (fun a b => syntactic_token_tree_compare a b = true) s1 s2)
  | [], [] => by simp [compareZip]
  | [], _ :: _ => by intro h; simp at h
  | _ :: _, [] => by intro h; simp at h
  | t1 :: r1, t2 :: r2 => by
      intro h
      simp only [compareZip, Bool.and_eq_true, List.forall₂_cons]
      have ih := compareZip_true_iff_forall2 r1 r2 (by simpa using h)
      rw [ih]

/-! A model of the proc_macro2 integer literal constructors the source's
documentation exercises, needed to speak about literal sub-kinds. -/

/-- The integer literal kinds used by the source's documentation
examples. -/
inductive IntKind where
  | u8
  | i32
  | u128
  | usize
deriving DecidableEq

/-- The textual type suffix attached by a suffixed constructor. -/
def IntKind.toSuffix : IntKind → String
  | .u8 => "u8"
  | .i32 => "i32"
  | .u128 => "u128"
  | .usize => "usize"

/-- A proc_macro2 unsuffixed integer literal constructor renders the
decimal text alone; the declared kind never reaches the stored text. -/
def unsuffixedLit (_ : IntKind) (n : Nat) : TokenTree := .lit (toString n)

/-- A proc_macro2 suffixed integer literal constructor renders the
decimal text followed by the kind's type suffix. -/
def suffixedLit (k : IntKind) (n : Nat) : TokenTree := .lit (toString n ++ k.toSuffix)

/-! The claims. -/

/-- C1: the claimed containment characterization fails on the code.  The
needle a a b occurs as a contiguous top-level run of the haystack
a a a b at offset 1, yet syntactic_token_stream_contains reports false:
the failed alignment at offset 0 resumes scanning at the first failing
offset 2 and never tries offset 1. -/
theorem claim_C1_contains_misses_occurrence :
    OccursIn [TokenTree.ident "a", TokenTree.ident "a", TokenTree.ident "b"]
      [TokenTree.ident "a", TokenTree.ident "a", TokenTree.ident "a", TokenTree.ident "b"] ∧
    syntactic_token_stream_contains
      [TokenTree.ident "a", TokenTree.ident "a", TokenTree.ident "b"]
      [TokenTree.ident "a", TokenTree.ident "a", TokenTree.ident "a", TokenTree.ident "b"]
      = some false := by
  constructor
  · exact OccursIn.top _ 1 (by decide)
  · rw [contains_enter_loop _ _ (by simp) (by simp)]
    rw [containsLoop_hit _ _ 0 (.ident "a") [.ident "a", .ident "b"] (.ident "a") rfl rfl
      (by decide)]
    rw [show verifyRun [TokenTree.ident "a", TokenTree.ident "a", TokenTree.ident "a",
      TokenTree.ident "b"] [TokenTree.ident "a", TokenTree.ident "b"] 1 = some (some 2)
      from by decide]
    dsimp only
    rw [containsLoop_hit _ _ 2 (.ident "a") [.ident "a", .ident "b"] (.ident "a") rfl rfl
      (by decide)]
    rw [show verifyRun [TokenTree.ident "a", TokenTree.ident "a", TokenTree.ident "a",
      TokenTree.ident "b"] [TokenTree.ident "a", TokenTree.ident "b"] 3 = some (some 3)
      from by decide]
    dsimp only
    rw [containsLoop_miss_other _ _ 3 (.ident "a") [.ident "a", .ident "b"] (.ident "b") rfl rfl
      (by decide) (fun d gs h => nomatch h)]
    rw [containsLoop_exit _ _ 4 rfl]

/-- C2: totality fails on the code.  On needle a b and haystack x a, the
guard at index 1 matches the needle head, the inner for loop then reads
haystack index 2, which is out of bounds: the Rust indexing panics, here
modelled as the none result. -/
theorem claim_C2_contains_panics :
    syntactic_token_stream_contains [TokenTree.ident "a", TokenTree.ident "b"]
      [TokenTree.ident "x", TokenTree.ident "a"] = none := by
  rw [contains_enter_loop _ _ (by simp) (by simp)]
  rw [containsLoop_miss_other _ _ 0 (.ident "a") [.ident "b"] (.ident "x") rfl rfl (by decide)
    (fun d gs h => nomatch h)]
  rw [containsLoop_hit _ _ 1 (.ident "a") [.ident "b"] (.ident "a") rfl rfl (by decide)]
  rw [show verifyRun [TokenTree.ident "x", TokenTree.ident "a"] [TokenTree.ident "b"] 2 = none
    from by decide]

/-- C3 counterexample: the skip-to-first-failing-offset reference and
the textbook restart-at-i-plus-1 naive search are not equivalent.  On
needle a a b and haystack a a a b the naive search finds the match at
offset 1 while the reference search returns false. -/
theorem claim_C3_counterexample :
    naive_contains [TokenTree.ident "a", TokenTree.ident "a", TokenTree.ident "b"]
      [TokenTree.ident "a", TokenTree.ident "a", TokenTree.ident "a", TokenTree.ident "b"]
      = true ∧
    syntactic_token_stream_contains
      [TokenTree.ident "a", TokenTree.ident "a", TokenTree.ident "b"]
      [TokenTree.ident "a", TokenTree.ident "a", TokenTree.ident "a", TokenTree.ident "b"]
      = some false := by
  constructor
  · rw [naive_contains.eq_def]
    rw [if_neg (by simp), if_neg (by simp)]
    rw [naiveLoop_hit_next _ _ 0 (.ident "a") [.ident "a", .ident "b"] (.ident "a") rfl rfl
      (by decide) (by decide)]
    exact naiveLoop_hit_found _ _ 1 (.ident "a") [.ident "a", .ident "b"] (.ident "a") rfl rfl
      (by decide) (by decide)
  · rw [contains_enter_loop _ _ (by simp) (by simp)]
    rw [containsLoop_hit _ _ 0 (.ident "a") [.ident "a", .ident "b"] (.ident "a") rfl rfl
      (by decide)]
    rw [show verifyRun [TokenTree.ident "a", TokenTree.ident "a", TokenTree.ident "a",
      TokenTree.ident "b"] [TokenTree.ident "a", TokenTree.ident "b"] 1 = some (some 2)
      from by decide]
    dsimp only
    rw [containsLoop_hit _ _ 2 (.ident "a") [.ident "a", .ident "b"] (.ident "a") rfl rfl
      (by decide)]
    rw [show verifyRun [TokenTree.ident "a", TokenTree.ident "a", TokenTree.ident "a",
      TokenTree.ident "b"] [TokenTree.ident "a", TokenTree.ident "b"] 3 = some (some 3)
      from by decide]
    dsimp only
    rw [containsLoop_miss_other _ _ 3 (.ident "a") [.ident "a", .ident "b"] (.ident "b") rfl rfl
      (by decide) (fun d gs h => nomatch h)]
    rw [containsLoop_exit _ _ 4 rfl]

/-- C3 amended: the naive restart-at-i-plus-1 search succeeds on every
input where the skip-based reference succeeds; the converse fails, so
the skip optimization does change observable behavior. -/
theorem claim_C3_naive_dominates (small_tt large_tt : List TokenTree)
    (h : syntactic_token_stream_contains small_tt large_tt = some true) :
    naive_contains small_tt large_tt = true :=
  contains_implies_naive small_tt large_tt h

/-- C3 witness: the amended claim applied at a concrete input on which
the reference search succeeds. -/
theorem claim_C3_witness :
    syntactic_token_stream_contains [TokenTree.ident "x"] [TokenTree.ident "x"] = some true ∧
    naive_contains [TokenTree.ident "x"] [TokenTree.ident "x"] = true := by
  have hc : syntactic_token_stream_contains [TokenTree.ident "x"] [TokenTree.ident "x"]
      = some true := by
    rw [contains_enter_loop _ _ (by simp) (by simp)]
    rw [containsLoop_hit _ _ 0 (.ident "x") [] (.ident "x") rfl rfl (by decide)]
    rfl
  exact ⟨hc, claim_C3_naive_dominates _ _ hc⟩

/-- C4: the claim fails on the code.  With needle a b and haystack
consisting of the single parenthesis group with children a b, the needle
is contained in the group's child stream (the code itself reports so,
and the containment property holds), yet the top-level call returns
false: the early length check returns before ever descending into
groups. -/
theorem claim_C4_nested_group_not_searched :
    List.length [TokenTree.group Delimiter.parenthesis
        [TokenTree.ident "a", TokenTree.ident "b"]] <
      List.length [TokenTree.ident "a", TokenTree.ident "b"] ∧
    syntactic_token_stream_contains [TokenTree.ident "a", TokenTree.ident "b"]
      [TokenTree.ident "a", TokenTree.ident "b"] = some true ∧
    OccursIn [TokenTree.ident "a", TokenTree.ident "b"]
      [TokenTree.group Delimiter.parenthesis [TokenTree.ident "a", TokenTree.ident "b"]] ∧
    syntactic_token_stream_contains [TokenTree.ident "a", TokenTree.ident "b"]
      [TokenTree.group Delimiter.parenthesis [TokenTree.ident "a", TokenTree.ident "b"]]
      = some false := by
  refine ⟨by simp, ?_, ?_, ?_⟩
  · rw [contains_enter_loop _ _ (by simp) (by simp)]
    rw [containsLoop_hit _ _ 0 (.ident "a") [.ident "b"] (.ident "a") rfl rfl (by decide)]
    rfl
  · exact OccursIn.nested _ Delimiter.parenthesis [TokenTree.ident "a", TokenTree.ident "b"]
      (by simp) (OccursIn.top _ 0 (by decide))
  · exact contains_too_long _ _ (by simp) (by simp)

/-- C5: group comparison is delimiter equality plus lengthwise pairwise
recursive comparison of the children; unequal delimiters are never
equal, and empty groups with a shared delimiter are equal. -/
theorem claim_C5_group_charact :
    (∀ (d1 d2 : Delimiter) (s1 s2 : List TokenTree),
      syntactic_token_tree_compare (.group d1 s1) (.group d2 s2) = true ↔
        (d1 = d2 ∧ s1.length = s2.length ∧
          List.Forall₂ (fun a b => syntactic_token_tree_compare a b = true) s1 s2)) ∧
    (∀ (d1 d2 : Delimiter) (s : List TokenTree), d1 ≠ d2 →
      syntactic_token_tree_compare (.group d1 s) (.group d2 s) = false) ∧
    (∀ d : Delimiter, syntactic_token_tree_compare (.group d []) (.group d []) = true) := by
  refine ⟨?_, ?_, ?_⟩
  · intro d1 d2 s1 s2
    simp only [syntactic_token_tree_compare]
    constructor
    · intro h
      by_cases hd : d1 = d2
      · rw [if_neg (by simp [hd])] at h
        by_cases hl : s1.length = s2.length
        · rw [if_neg (by simp [hl])] at h
          exact ⟨hd, hl, (compareZip_true_iff_forall2 s1 s2 hl).mp h⟩
        · rw [if_pos hl] at h
          exact absurd h (by simp)
      · rw [if_pos hd] at h
        exact absurd h (by simp)
    · rintro ⟨hd, hl, hf⟩
      rw [if_neg (by simp [hd]), if_neg (by simp [hl])]
      exact (compareZip_true_iff_forall2 s1 s2 hl).mpr hf
  · intro d1 d2 s hd
    simp [syntactic_token_tree_compare, hd]
  · intro d
    exact tree_compare_refl _

/-- C5 witness: the delimiter-sensitivity part applied at a concrete
pair of groups with equal children and different delimiters. -/
theorem claim_C5_witness :
    Delimiter.parenthesis ≠ Delimiter.brace ∧
    syntactic_token_tree_compare (.group .parenthesis [TokenTree.ident "x"])
      (.group .brace [TokenTree.ident "x"]) = false :=
  ⟨by decide, claim_C5_group_charact.2.1 _ _ _ (by decide)⟩

/-- C6: literal comparison is exactly equality of the rendered text: the
declared numeric sub-kind is invisible (any two unsuffixed kinds with
the same decimal text are equal), while a rendered type suffix makes the
texts, and hence the literals, unequal. -/
theorem claim_C6_literal_text_identity :
    (∀ r1 r2 : String,
      syntactic_token_tree_compare (.lit r1) (.lit r2) = true ↔ r1 = r2) ∧
    (∀ (k1 k2 : IntKind) (n : Nat),
      syntactic_token_tree_compare (unsuffixedLit k1 n) (unsuffixedLit k2 n) = true) ∧
    (∀ (k : IntKind) (n : Nat),
      syntactic_token_tree_compare (suffixedLit k n) (unsuffixedLit k n) = false) := by
  refine ⟨?_, ?_, ?_⟩
  · intro r1 r2
    simp [syntactic_token_tree_compare]
  · intro k1 k2 n
    simp [unsuffixedLit, syntactic_token_tree_compare]
  · intro k n
    simp only [suffixedLit, unsuffixedLit, syntactic_token_tree_compare]
    rw [beq_eq_false_iff_ne]
    intro h
    have hlen := congrArg String.length h
    rw [String.length_append] at hlen
    have hk : (IntKind.toSuffix k).length ≠ 0 := by cases k <;> decide
    omega

/-- C7: both comparison entry points are reflexive. -/
theorem claim_C7_reflexivity :
    (∀ t : TokenTree, syntactic_token_tree_compare t t = true) ∧
    (∀ s : List TokenTree, syntactic_token_stream_compare s s = true) :=
  ⟨tree_compare_refl, stream_compare_refl⟩

/-- C8: an empty needle is contained in every haystack, including the
empty one. -/
theorem claim_C8_empty_needle (large_tt : List TokenTree) :
    syntactic_token_stream_contains [] large_tt = some true :=
  contains_nil_needle large_tt

/-- C9: tree comparison is symmetric. -/
theorem claim_C9_symmetry (a b : TokenTree) :
    syntactic_token_tree_compare a b = syntactic_token_tree_compare b a :=
  tree_compare_symm a b

/-- C10: stream comparison coincides with tree comparison of the two
streams wrapped in groups carrying one and the same delimiter. -/
theorem claim_C10_stream_eq_group_lift (a b : List TokenTree) (d : Delimiter) :
    syntactic_token_stream_compare a b =
      syntactic_token_tree_compare (.group d a) (.group d b) := by
  simp only [syntactic_token_stream_compare, syntactic_token_tree_compare]
  rw [if_neg (show ¬ d ≠ d by simp)]

end Rustilities
